import Mathlib

/-!
Shallow embedding of the `transformer` library (`src/Transformer.cpp`):
a directed multigraph of rigid-transformation edges over named frames,
a bounded breadth-first chain resolver, per-chain composition of samples,
and the `Transformer` façade that keeps maker chains in sync with the graph.

Rigid transformations themselves (`Eigen::Transform3d`) belong to the external
math library; they are abstracted by a type `M` together with the operations
the core uses (identity, composition, inverse).  The external stream
aggregator is abstracted by a query function `agg : Nat → Int → Bool → Option M`
(stream index, time, interpolation flag) and, in the façade, by a fresh
stream-index counter plus a log of pushed samples.
-/

namespace transformer

/-- Operations the core needs from the external math library (identity,
composition by right multiplication, exact inverse). -/
structure RigidOps (M : Type) where
  identity : M
  mul : M → M → M
  inv : M → M

/-- A timed transformation sample: source frame, target frame, time and the
rigid transform, mirroring the `Transformation` struct fields used by
`Transformer.cpp` (`tr.from`, `tr.to`, `tr.time`, `tr.transform`). -/
structure Transformation (M : Type) where
  from_ : String
  to_ : String
  time : Int
  transform : M
deriving DecidableEq, Repr

/-- The polymorphic edge type: `StaticTransformationElement`,
`DynamicTransformationElement` (holding its aggregator stream index) and
`InverseTransformationElement` (wrapping the element it reverses). -/
inductive TransformationElement (M : Type) where
  | staticElem (sourceFrame targetFrame : String) (transform : M)
  | dynamicElem (sourceFrame targetFrame : String) (streamIdx : Nat)
  | inverseElem (nonInverseElement : TransformationElement M)
deriving DecidableEq, Repr

mutual

/-- Modelled from the spec: the frame accessors are declared in
`Transformer.h`, which is not part of `src/`; per the spec (§3, §4.1) static
and dynamic elements report their stored frames and an inverse element's
`source_frame`/`target_frame` are the swap of its underlying element's. -/
def TransformationElement.getSourceFrame {M : Type} : TransformationElement M → String
  | .staticElem s _ _ => s
  | .dynamicElem s _ _ => s
  | .inverseElem e => e.getTargetFrame

/-- Modelled from the spec: see `TransformationElement.getSourceFrame`. -/
def TransformationElement.getTargetFrame {M : Type} : TransformationElement M → String
  | .staticElem _ t _ => t
  | .dynamicElem _ t _ => t
  | .inverseElem e => e.getSourceFrame

end

/-- Whether an element is an `InverseTransformationElement`. -/
def TransformationElement.isInverseElem {M : Type} : TransformationElement M → Bool
  | .inverseElem _ => true
  | _ => false

/-- Per-edge sampling `getTransformation(atTime, doInterpolation, tr)`.
The inverse case is `InverseTransformationElement::getTransformation` in
`src/Transformer.cpp` (delegate, then invert; failure propagates).  The
static and dynamic cases are modelled from the spec (§4.1): their bodies live
in the missing `Transformer.h`; a static element returns its stored transform
regardless of time, a dynamic element queries the aggregator for its stream
index. -/
def TransformationElement.getTransformation {M : Type} (ops : RigidOps M)
    (agg : Nat → Int → Bool → Option M) :
    TransformationElement M → Int → Bool → Option M
  | .staticElem _ _ tr, _, _ => some tr
  | .dynamicElem _ _ idx, atTime, doInterpolation => agg idx atTime doInterpolation
  | .inverseElem e, atTime, doInterpolation =>
    match e.getTransformation ops agg atTime doInterpolation with
    | some tr => some (ops.inv tr)
    | none => none

/-- `TransformationTree::addTransformation`: append the element and its
freshly created inverse sibling to `availableElements`. -/
def TransformationTree.addTransformation {M : Type}
    (availableElements : List (TransformationElement M))
    (element : TransformationElement M) : List (TransformationElement M) :=
  availableElements ++ [element, .inverseElem element]

/-- A search node (`TransformationNode`): the root carries only its frame
name; every other node records its frame name, its parent and the edge
`parentToCurNode` that produced it. -/
inductive TransformationNode (M : Type) where
  | root (frameName : String)
  | child (frameName : String) (parent : TransformationNode M)
      (parentToCurNode : TransformationElement M)
deriving DecidableEq, Repr

/-- The node's frame name. -/
def TransformationNode.frameName {M : Type} : TransformationNode M → String
  | .root f => f
  | .child f _ _ => f

/-- The C++ loop-guard test `node->parent && node->parent->frameName == t`:
false at the root (null parent), otherwise compares the parent's frame name. -/
def TransformationNode.parentFrameIs {M : Type} : TransformationNode M → String → Bool
  | .root _, _ => false
  | .child _ p _, t => p.frameName == t

/-- `TransformationTree::addMatchingTransforms(from, node)`: iterate over
`availableElements`; every element whose source frame equals `from` spawns a
child node, except when the loop guard fires (the parent's frame name equals
the element's target frame, which would immediately reverse the last step). -/
def TransformationTree.addMatchingTransforms {M : Type}
    (availableElements : List (TransformationElement M)) (from_ : String)
    (node : TransformationNode M) : List (TransformationNode M) :=
  match availableElements with
  | [] => []
  | e :: rest =>
    if e.getSourceFrame == from_ then
      if node.parentFrameIs e.getTargetFrame then
        TransformationTree.addMatchingTransforms rest from_ node
      else
        .child e.getTargetFrame node e ::
          TransformationTree.addMatchingTransforms rest from_ node
    else
      TransformationTree.addMatchingTransforms rest from_ node

/-- `TransformationTree::checkForMatchingChildFrame(to, node)`: the first
child whose frame name equals `to`, if any. -/
def TransformationTree.checkForMatchingChildFrame {M : Type} (to_ : String) :
    List (TransformationNode M) → Option (TransformationNode M)
  | [] => none
  | c :: rest =>
    if c.frameName == to_ then some c
    else TransformationTree.checkForMatchingChildFrame to_ rest

/-- The result-collection loop of `getTransformationChain`: walk parent
pointers from the matching child back to the root, pushing each
`parentToCurNode`.  The resulting vector is therefore in leaf-to-root
order (the code prints it as "Chain is (reverse)"). -/
def TransformationNode.collectChain {M : Type} :
    TransformationNode M → List (TransformationElement M)
  | .root _ => []
  | .child _ p e => e :: p.collectChain

/-- One pass over `curLevel` inside `getTransformationChain`: expand each
node, return the collected chain of the first matching child, otherwise
gather all children into the next level. -/
def TransformationTree.expandLevel {M : Type}
    (availableElements : List (TransformationElement M)) (to_ : String) :
    List (TransformationNode M) →
      Sum (List (TransformationElement M)) (List (TransformationNode M))
  | [] => .inr []
  | n :: rest =>
    match TransformationTree.checkForMatchingChildFrame to_
        (TransformationTree.addMatchingTransforms availableElements n.frameName n) with
    | some candidate => .inl candidate.collectChain
    | none =>
      match TransformationTree.expandLevel availableElements to_ rest with
      | .inl res => .inl res
      | .inr nextLevel =>
        .inr (TransformationTree.addMatchingTransforms availableElements n.frameName n ++ nextLevel)

/-- The bounded level loop `for(int i = 0; i < maxSeekDepth && curLevel.size(); i++)`. -/
def TransformationTree.seekLevels {M : Type}
    (availableElements : List (TransformationElement M)) (to_ : String) :
    Nat → List (TransformationNode M) → Option (List (TransformationElement M))
  | 0, _ => none
  | Nat.succ fuel, curLevel =>
    if curLevel.isEmpty then none
    else
      match TransformationTree.expandLevel availableElements to_ curLevel with
      | .inl res => some res
      | .inr nextLevel => TransformationTree.seekLevels availableElements to_ fuel nextLevel

/-- `TransformationTree::getTransformationChain(from, to, result)`: bounded
BFS from a root labeled `from`; `none` models returning `false` with the
result vector untouched. -/
def TransformationTree.getTransformationChain {M : Type}
    (availableElements : List (TransformationElement M)) (maxSeekDepth : Nat)
    (from_ to_ : String) : Option (List (TransformationElement M)) :=
  TransformationTree.seekLevels availableElements to_ maxSeekDepth
    [TransformationNode.root from_]

/-- The maker's identity: a `(source, target)` pair and the currently
installed `transformationChain` (`TransformationMakerBase`). -/
structure TransformationMakerBase (M : Type) where
  sourceFrame : String
  targetFrame : String
  transformationChain : List (TransformationElement M)
deriving DecidableEq, Repr

/-- The composition loop of `TransformationMakerBase::getTransformation`:
starting from the running transform `acc`, sample each chain element in
order; any missing sample aborts with `none`, otherwise right-multiply it
onto the running transform. -/
def TransformationMakerBase.applyChain {M : Type} (ops : RigidOps M)
    (agg : Nat → Int → Bool → Option M) :
    M → List (TransformationElement M) → Int → Bool → Option M
  | acc, [], _, _ => some acc
  | acc, e :: rest, time, doInterpolation =>
    match e.getTransformation ops agg time doInterpolation with
    | none => none
    | some tr =>
      TransformationMakerBase.applyChain ops agg (ops.mul acc tr) rest time doInterpolation

/-- `TransformationMakerBase::getTransformation(time, tr, doInterpolation)`:
`none` models returning `false`.  An empty chain fails immediately;
otherwise the chain is composed starting from the identity, and the result
echoes the maker's source frame, target frame and the query time. -/
def TransformationMakerBase.getTransformation {M : Type} (ops : RigidOps M)
    (agg : Nat → Int → Bool → Option M) (mk : TransformationMakerBase M)
    (time : Int) (doInterpolation : Bool) : Option (Transformation M) :=
  if mk.transformationChain.isEmpty then none
  else
    match TransformationMakerBase.applyChain ops agg ops.identity
        mk.transformationChain time doInterpolation with
    | none => none
    | some m => some ⟨mk.sourceFrame, mk.targetFrame, time, m⟩

/-- State owned by the `Transformer` façade: the `(from, to) → stream index`
map, the tree's `availableElements`, the registered makers, plus the model of
the external aggregator (a fresh stream-index counter and the log of samples
pushed, each under its stream index) and the tree's `maxSeekDepth`. -/
structure TransformerState (M : Type) where
  transformToStreamIndex : List ((String × String) × Nat)
  availableElements : List (TransformationElement M)
  transformationMakers : List (TransformationMakerBase M)
  nextStreamIndex : Nat
  pushedSamples : List (Nat × Transformation M)
  maxSeekDepth : Nat
deriving Repr

/-- `transformToStreamIndex.find(pair)`: first entry with the given key. -/
def Transformer.lookupPair {M : Type} (st : TransformerState M)
    (key : String × String) : Option Nat :=
  go st.transformToStreamIndex
where
  go : List ((String × String) × Nat) → Option Nat
    | [] => none
    | kv :: rest => if kv.1 = key then some kv.2 else go rest

/-- `Transformer::pushDynamicTransformation`.  An unknown `(from, to)` pair
registers a fresh aggregator stream (the external `registerStream` is
modelled as returning the next unused index), records the index in the map,
adds the dynamic element (and its automatic inverse) to the tree, re-resolves
the chain of every registered maker whose pair now has a chain, and finally
pushes the sample to the aggregator under the recorded stream index. -/
def Transformer.pushDynamicTransformation {M : Type} (st : TransformerState M)
    (tr : Transformation M) : TransformerState M :=
  match Transformer.lookupPair st (tr.from_, tr.to_) with
  | some idx => { st with pushedSamples := st.pushedSamples ++ [(idx, tr)] }
  | none =>
    let streamIdx := st.nextStreamIndex
    let avail := TransformationTree.addTransformation st.availableElements
      (.dynamicElem tr.from_ tr.to_ streamIdx)
    let makers := st.transformationMakers.map fun mk =>
      match TransformationTree.getTransformationChain avail st.maxSeekDepth
          mk.sourceFrame mk.targetFrame with
      | some chain => { mk with transformationChain := chain }
      | none => mk
    { st with
      transformToStreamIndex := ((tr.from_, tr.to_), streamIdx) :: st.transformToStreamIndex,
      availableElements := avail,
      transformationMakers := makers,
      nextStreamIndex := streamIdx + 1,
      pushedSamples := st.pushedSamples ++ [(streamIdx, tr)] }

/-- `Transformer::pushStaticTransformation`: add a static element (and its
automatic inverse) to the tree; nothing else changes. -/
def Transformer.pushStaticTransformation {M : Type} (st : TransformerState M)
    (tr : Transformation M) : TransformerState M :=
  { st with
    availableElements := TransformationTree.addTransformation st.availableElements
      (.staticElem tr.from_ tr.to_ tr.transform) }

/-- Modelled from the spec: `register_maker(from, to)` (§4.4) is declared in
the missing `Transformer.h`; it creates a maker, attempts immediate chain
resolution and attaches whatever chain results (possibly empty). -/
def Transformer.registerTransformation {M : Type} (st : TransformerState M)
    (from_ to_ : String) : TransformerState M × TransformationMakerBase M :=
  let chain :=
    (TransformationTree.getTransformationChain st.availableElements st.maxSeekDepth
      from_ to_).getD []
  let mk : TransformationMakerBase M := ⟨from_, to_, chain⟩
  ({ st with transformationMakers := st.transformationMakers ++ [mk] }, mk)

/-- The frame name of the root of the search tree a node belongs to. -/
def TransformationNode.rootName {M : Type} : TransformationNode M → String
  | .root f => f
  | .child _ p _ => p.rootName

/-- The invariant maintained by the BFS for every node it creates: a child's
frame name is its parent edge's target, the parent edge leaves the parent's
frame, and the loop guard did not fire when the child was created. -/
def goodNode {M : Type} : TransformationNode M → Prop
  | .root _ => True
  | .child f p e =>
    f = e.getTargetFrame ∧ e.getSourceFrame = p.frameName ∧
      p.parentFrameIs e.getTargetFrame = false ∧ goodNode p

/-- `chainConnects from_ l to_` states that `l`, read in leaf-to-root order,
is a connected path of edges from frame `from_` to frame `to_`: the first
element's target is `to_`, consecutive elements link up (the later-listed
element's target is the earlier-listed element's source), and the last
element's source is `from_`. -/
def chainConnects {M : Type} (from_ : String) :
    List (TransformationElement M) → String → Bool
  | [], t => from_ == t
  | e :: rest, t => (e.getTargetFrame == t) && chainConnects from_ rest e.getSourceFrame

/-- No two adjacent elements `a, b` of the list have `a`'s target equal to
`b`'s source.  On a chain in leaf-to-root order this is exactly what the
loop guard enforces: the step recorded earlier in the list (deeper in the
tree) does not lead back to the frame the step listed after it started
from. -/
def chainNoUndo {M : Type} : List (TransformationElement M) → Bool
  | a :: b :: rest => (a.getTargetFrame != b.getSourceFrame) && chainNoUndo (b :: rest)
  | _ => true

/-- The reading of the guard consequence with the roles of the two adjacent
elements exchanged: no two adjacent elements `a, b` have `b`'s target equal
to `a`'s source. -/
def chainNoBacktrack {M : Type} : List (TransformationElement M) → Bool
  | a :: b :: rest => (b.getTargetFrame != a.getSourceFrame) && chainNoBacktrack (b :: rest)
  | _ => true

/-- No element of the list is adjacent to its own inverse sibling, in either
order. -/
def chainNoInverseAdjacent {M : Type} [DecidableEq M] :
    List (TransformationElement M) → Bool
  | a :: b :: rest =>
    (b != TransformationElement.inverseElem a) &&
      (a != TransformationElement.inverseElem b) && chainNoInverseAdjacent (b :: rest)
  | _ => true

/-- The spec's description of the composition step of `Maker.get` (§4.3):
the list of per-edge samples `T₁ … T_k`, taken in chain order, or `none` as
soon as one edge has no sample. -/
def sampleEdges {M : Type} (ops : RigidOps M) (agg : Nat → Int → Bool → Option M) :
    List (TransformationElement M) → Int → Bool → Option (List M)
  | [], _, _ => some []
  | e :: rest, time, doInterpolation =>
    match e.getTransformation ops agg time doInterpolation with
    | none => none
    | some tr => (sampleEdges ops agg rest time doInterpolation).map (fun ts => tr :: ts)

/-- Concrete rigid-transform operations on `Int` used for ground instances
(any instantiation of the abstract math interface works). -/
def opsInt : RigidOps Int := ⟨1, fun a b => a * b, fun a => -a⟩

/-- An aggregator with no data: every query returns `none`. -/
def aggEmpty : Nat → Int → Bool → Option Int := fun _ _ _ => none

/-- Static edge `A→B` (scenario S4 of the spec). -/
def elemAB : TransformationElement Int := .staticElem "A" "B" 1

/-- Static edge `B→C` (scenario S1 of the spec). -/
def elemBC : TransformationElement Int := .staticElem "B" "C" 2

/-- The tree after adding `A→B` (which also appends its inverse). -/
def availAB : List (TransformationElement Int) :=
  TransformationTree.addTransformation [] elemAB

/-- The tree after adding `A→B` and then `B→C`. -/
def availABC : List (TransformationElement Int) :=
  TransformationTree.addTransformation availAB elemBC

/-- A façade state whose tree holds the single static edge `A→B`. -/
def stAB : TransformerState Int := ⟨[], availAB, [], 0, [], 20⟩

/-- A façade state with an empty tree and one registered maker for `(X, Y)`. -/
def stXY : TransformerState Int := ⟨[], [], [⟨"X", "Y", []⟩], 0, [], 20⟩

/-- A dynamic sample from `A` to `B` at time 0. -/
def trAB : Transformation Int := ⟨"A", "B", 0, 5⟩

/-- A maker for `(A, C)` holding the chain the tree returns for `availABC`. -/
def mkAC : TransformationMakerBase Int := ⟨"A", "C", [elemBC, elemAB]⟩

/-- An element never equals its own inverse sibling (the inverse strictly
contains the element). -/
theorem inverseElem_ne {M : Type} : ∀ e : TransformationElement M,
    TransformationElement.inverseElem e ≠ e := by
  intro e
  induction e with
  | staticElem s t tr => intro h; cases h
  | dynamicElem s t i => intro h; cases h
  | inverseElem e ih => intro h; exact ih (TransformationElement.inverseElem.inj h)

/-- Membership in the children produced by `addMatchingTransforms`: a child
is produced from exactly the elements whose source frame matches and for
which the loop guard does not fire. -/
theorem mem_addMatchingTransforms {M : Type} {from_ : String} {node c : TransformationNode M}
    {avail : List (TransformationElement M)} :
    c ∈ TransformationTree.addMatchingTransforms avail from_ node ↔
      ∃ e, e ∈ avail ∧ e.getSourceFrame = from_ ∧
        node.parentFrameIs e.getTargetFrame = false ∧
        c = TransformationNode.child e.getTargetFrame node e := by
  induction avail with
  | nil => simp [TransformationTree.addMatchingTransforms]
  | cons a rest ih =>
    simp only [TransformationTree.addMatchingTransforms]
    by_cases h1 : (a.getSourceFrame == from_) = true
    · by_cases h2 : node.parentFrameIs a.getTargetFrame = true
      · rw [if_pos h1, if_pos h2, ih]
        constructor
        · rintro ⟨e, he, h3, h4, h5⟩
          exact ⟨e, List.mem_cons_of_mem _ he, h3, h4, h5⟩
        · rintro ⟨e, he, h3, h4, h5⟩
          rcases List.mem_cons.mp he with rfl | he'
          · rw [h4] at h2; cases h2
          · exact ⟨e, he', h3, h4, h5⟩
      · rw [if_pos h1, if_neg h2]
        have h2' : node.parentFrameIs a.getTargetFrame = false :=
          Bool.not_eq_true _ ▸ eq_false_of_ne_true h2
        simp only [List.mem_cons, ih]
        constructor
        · rintro (rfl | ⟨e, he, h3, h4, h5⟩)
          · exact ⟨a, Or.inl rfl, beq_iff_eq.mp h1, h2', rfl⟩
          · exact ⟨e, Or.inr he, h3, h4, h5⟩
        · rintro ⟨e, he, h3, h4, h5⟩
          rcases he with rfl | he'
          · exact Or.inl h5
          · exact Or.inr ⟨e, he', h3, h4, h5⟩
    · rw [if_neg h1, ih]
      have h1' : a.getSourceFrame ≠ from_ := fun h => h1 (beq_iff_eq.mpr h)
      constructor
      · rintro ⟨e, he, h3, h4, h5⟩
        exact ⟨e, List.mem_cons_of_mem _ he, h3, h4, h5⟩
      · rintro ⟨e, he, h3, h4, h5⟩
        rcases List.mem_cons.mp he with rfl | he'
        · exact absurd h3 h1'
        · exact ⟨e, he', h3, h4, h5⟩

/-- The structural facts about any child produced by expanding a good node:
it is good, shares the root, its collected chain is one edge longer, and it
really is a `child` node. -/
theorem props_of_mem_addMatchingTransforms {M : Type} {node c : TransformationNode M}
    {avail : List (TransformationElement M)} (hg : goodNode node)
    (hc : c ∈ TransformationTree.addMatchingTransforms avail node.frameName node) :
    goodNode c ∧ c.rootName = node.rootName ∧
      c.collectChain.length = node.collectChain.length + 1 ∧
      ∃ fn p e, c = TransformationNode.child fn p e := by
  rcases mem_addMatchingTransforms.mp hc with ⟨e, _, h3, h4, rfl⟩
  refine ⟨?_, rfl, by simp [TransformationNode.collectChain], _, _, _, rfl⟩
  exact ⟨rfl, h3, h4, hg⟩

/-- `checkForMatchingChildFrame` returns a member of the list whose frame
name is the sought frame. -/
theorem checkForMatchingChildFrame_eq_some {M : Type} {to_ : String}
    {cs : List (TransformationNode M)} {c : TransformationNode M}
    (h : TransformationTree.checkForMatchingChildFrame to_ cs = some c) :
    c ∈ cs ∧ c.frameName = to_ := by
  induction cs with
  | nil => simp [TransformationTree.checkForMatchingChildFrame] at h
  | cons a rest ih =>
    simp only [TransformationTree.checkForMatchingChildFrame] at h
    by_cases h1 : (a.frameName == to_) = true
    · rw [if_pos h1] at h
      obtain rfl := Option.some.inj h
      exact ⟨List.mem_cons_self _ _, beq_iff_eq.mp h1⟩
    · rw [if_neg h1] at h
      rcases ih h with ⟨h2, h3⟩
      exact ⟨List.mem_cons_of_mem _ h2, h3⟩

/-- A successful `expandLevel` pass returns the collected chain of a
matching child of one of the level's nodes. -/
theorem expandLevel_inl {M : Type} {avail : List (TransformationElement M)} {to_ : String} :
    ∀ {level : List (TransformationNode M)} {res : List (TransformationElement M)},
      TransformationTree.expandLevel avail to_ level = Sum.inl res →
      ∃ n, n ∈ level ∧
        ∃ c, c ∈ TransformationTree.addMatchingTransforms avail n.frameName n ∧
          c.frameName = to_ ∧ res = c.collectChain := by
  intro level
  induction level with
  | nil => intro res h; simp [TransformationTree.expandLevel] at h
  | cons n rest ih =>
    intro res h
    cases hcheck : TransformationTree.checkForMatchingChildFrame to_
        (TransformationTree.addMatchingTransforms avail n.frameName n) with
    | some candidate =>
      simp only [TransformationTree.expandLevel, hcheck, Sum.inl.injEq] at h
      rcases checkForMatchingChildFrame_eq_some hcheck with ⟨hmem, hname⟩
      exact ⟨n, List.mem_cons_self _ _, candidate, hmem, hname, h.symm⟩
    | none =>
      simp only [TransformationTree.expandLevel, hcheck] at h
      cases hrec : TransformationTree.expandLevel avail to_ rest with
      | inl res2 =>
        rw [hrec] at h
        obtain rfl := Sum.inl.inj h
        rcases ih hrec with ⟨n2, hn2, c, hc, hcn, hres⟩
        exact ⟨n2, List.mem_cons_of_mem _ hn2, c, hc, hcn, hres⟩
      | inr nl =>
        rw [hrec] at h
        cases h

/-- Every node of the next level produced by `expandLevel` is a child
produced by expanding some node of the current level. -/
theorem expandLevel_inr {M : Type} {avail : List (TransformationElement M)} {to_ : String} :
    ∀ {level nl : List (TransformationNode M)},
      TransformationTree.expandLevel avail to_ level = Sum.inr nl →
      ∀ c ∈ nl, ∃ n, n ∈ level ∧
        c ∈ TransformationTree.addMatchingTransforms avail n.frameName n := by
  intro level
  induction level with
  | nil =>
    intro nl h c hc
    simp only [TransformationTree.expandLevel, Sum.inr.injEq] at h
    subst h
    cases hc
  | cons n rest ih =>
    intro nl h c hc
    cases hcheck : TransformationTree.checkForMatchingChildFrame to_
        (TransformationTree.addMatchingTransforms avail n.frameName n) with
    | some candidate =>
      simp only [TransformationTree.expandLevel, hcheck] at h
      cases h
    | none =>
      simp only [TransformationTree.expandLevel, hcheck] at h
      cases hrec : TransformationTree.expandLevel avail to_ rest with
      | inl res2 => rw [hrec] at h; cases h
      | inr nl2 =>
        rw [hrec] at h
        obtain rfl := Sum.inr.inj h
        rcases List.mem_append.mp hc with hc1 | hc2
        · exact ⟨n, List.mem_cons_self _ _, hc1⟩
        · rcases ih hrec c hc2 with ⟨n2, hn2, hcm⟩
          exact ⟨n2, List.mem_cons_of_mem _ hn2, hcm⟩

/-- Master invariant of the bounded level loop: starting from a level of
good nodes that share the root `f` and sit at depth `k`, any returned chain
is the collected chain of a good child node with root `f` and the sought
frame name, of length at most `k` plus the remaining fuel. -/
theorem seekLevels_spec {M : Type} {avail : List (TransformationElement M)} {to_ f : String} :
    ∀ (fuel : Nat) (level : List (TransformationNode M)) (k : Nat),
      (∀ n ∈ level, goodNode n ∧ n.rootName = f ∧ n.collectChain.length = k) →
      ∀ {res : List (TransformationElement M)},
        TransformationTree.seekLevels avail to_ fuel level = some res →
        ∃ c : TransformationNode M, goodNode c ∧ c.rootName = f ∧ c.frameName = to_ ∧
          (∃ fn p e, c = TransformationNode.child fn p e) ∧
          res = c.collectChain ∧ res.length ≤ k + fuel := by
  intro fuel
  induction fuel with
  | zero =>
    intro level k _ res h
    simp [TransformationTree.seekLevels] at h
  | succ fuel ih =>
    intro level k hlevel res h
    simp only [TransformationTree.seekLevels] at h
    by_cases hemp : level.isEmpty = true
    · rw [if_pos hemp] at h; cases h
    · rw [if_neg hemp] at h
      cases hexp : TransformationTree.expandLevel avail to_ level with
      | inl res1 =>
        rw [hexp] at h
        obtain rfl := Option.some.inj h
        rcases expandLevel_inl hexp with ⟨n, hn, c, hc, hcn, hres⟩
        rcases hlevel n hn with ⟨hgood, hroot, hlen⟩
        rcases props_of_mem_addMatchingTransforms hgood hc with ⟨hgc, hrc, hlc, hshape⟩
        refine ⟨c, hgc, hrc.trans hroot, hcn, hshape, hres, ?_⟩
        rw [hres, hlc, hlen]
        omega
      | inr nl =>
        rw [hexp] at h
        have hlevel' : ∀ n ∈ nl, goodNode n ∧ n.rootName = f ∧ n.collectChain.length = k + 1 := by
          intro c hcnl
          rcases expandLevel_inr hexp c hcnl with ⟨n, hn, hcm⟩
          rcases hlevel n hn with ⟨hgood, hroot, hlen⟩
          rcases props_of_mem_addMatchingTransforms hgood hcm with ⟨hgc, hrc, hlc, _⟩
          exact ⟨hgc, hrc.trans hroot, by rw [hlc, hlen]⟩
        rcases ih nl (k + 1) hlevel' h with ⟨c, h1, h2, h3, h4, h5, h6⟩
        exact ⟨c, h1, h2, h3, h4, h5, by omega⟩

/-- The invariant of the singleton starting level used by
`getTransformationChain`. -/
theorem rootLevel_inv {M : Type} (from_ : String) :
    ∀ n ∈ [TransformationNode.root from_ (M := M)],
      goodNode n ∧ n.rootName = from_ ∧ n.collectChain.length = 0 := by
  intro n hn
  rcases List.mem_singleton.mp hn with rfl
  exact ⟨trivial, rfl, rfl⟩

/-- The chain collected from a good node is a connected leaf-to-root path
from the node's root frame to the node's own frame. -/
theorem chainConnects_collectChain {M : Type} :
    ∀ {node : TransformationNode M}, goodNode node →
      chainConnects node.rootName node.collectChain node.frameName = true := by
  intro node
  induction node with
  | root fr =>
    intro _
    simp [chainConnects, TransformationNode.collectChain, TransformationNode.rootName,
      TransformationNode.frameName]
  | child fr p e ih =>
    intro h
    simp only [goodNode] at h
    rcases h with ⟨h1, h2, _, h4⟩
    subst h1
    simp only [TransformationNode.collectChain, TransformationNode.rootName,
      TransformationNode.frameName, chainConnects, Bool.and_eq_true, beq_self_eq_true,
      true_and]
    rw [h2]
    exact ih h4

/-- The chain collected from a good node never undoes a step: an element's
target frame differs from the source frame of the element listed right
after it (the loop guard forbids exactly this). -/
theorem chainNoUndo_collectChain {M : Type} :
    ∀ {node : TransformationNode M}, goodNode node →
      chainNoUndo node.collectChain = true := by
  intro node
  induction node with
  | root fr => intro _; rfl
  | child fr p e ih =>
    intro h
    simp only [goodNode] at h
    rcases h with ⟨_, _, h3, h4⟩
    have hp := ih h4
    cases p with
    | root fr2 => rfl
    | child fr2 pp e2 =>
      simp only [goodNode] at h4
      rcases h4 with ⟨_, g2, _, _⟩
      simp only [TransformationNode.collectChain] at hp ⊢
      simp only [chainNoUndo, Bool.and_eq_true, bne_iff_ne]
      refine ⟨?_, by simpa [chainNoUndo] using hp⟩
      rw [g2]
      intro heq
      rw [TransformationNode.parentFrameIs, ← heq] at h3
      simp at h3

/-- On any list satisfying `chainNoUndo`, no element is adjacent to its own
inverse sibling (in either order). -/
theorem chainNoInverseAdjacent_of_chainNoUndo {M : Type} [DecidableEq M] :
    ∀ {l : List (TransformationElement M)}, chainNoUndo l = true →
      chainNoInverseAdjacent l = true := by
  intro l
  induction l with
  | nil => intro _; rfl
  | cons a t ih =>
    intro h
    cases t with
    | nil => rfl
    | cons b rest =>
      simp only [chainNoUndo, Bool.and_eq_true, bne_iff_ne] at h
      rcases h with ⟨h1, h2⟩
      have hb : b ≠ TransformationElement.inverseElem a := by
        intro he
        apply h1
        rw [he]
        rfl
      have ha : a ≠ TransformationElement.inverseElem b := by
        intro he
        apply h1
        rw [he]
        rfl
      simp only [chainNoInverseAdjacent, Bool.and_eq_true, bne_iff_ne]
      exact ⟨⟨hb, ha⟩, ih h2⟩

/-- The running composition loop of the maker equals: take all per-edge
samples in chain order, then fold them onto the accumulator by right
multiplication. -/
theorem applyChain_eq_sampleEdges {M : Type} (ops : RigidOps M)
    (agg : Nat → Int → Bool → Option M) :
    ∀ (l : List (TransformationElement M)) (acc : M) (time : Int) (doInterpolation : Bool),
      TransformationMakerBase.applyChain ops agg acc l time doInterpolation =
        (sampleEdges ops agg l time doInterpolation).map (fun ts => ts.foldl ops.mul acc) := by
  intro l
  induction l with
  | nil => intro acc time doInterpolation; rfl
  | cons e rest ih =>
    intro acc time doInterpolation
    simp only [TransformationMakerBase.applyChain, sampleEdges]
    cases he : e.getTransformation ops agg time doInterpolation with
    | none => rfl
    | some tr =>
      show TransformationMakerBase.applyChain ops agg (ops.mul acc tr) rest time doInterpolation =
        Option.map (fun ts => List.foldl ops.mul acc ts)
          (Option.map (fun ts => tr :: ts) (sampleEdges ops agg rest time doInterpolation))
      rw [ih]
      cases hs : sampleEdges ops agg rest time doInterpolation with
      | none => rfl
      | some ts => rfl

/-- `sampleEdges` fails exactly when some edge of the chain has no sample. -/
theorem sampleEdges_eq_none_iff {M : Type} (ops : RigidOps M)
    (agg : Nat → Int → Bool → Option M) :
    ∀ (l : List (TransformationElement M)) (time : Int) (doInterpolation : Bool),
      sampleEdges ops agg l time doInterpolation = none ↔
        ∃ e ∈ l, e.getTransformation ops agg time doInterpolation = none := by
  intro l
  induction l with
  | nil => intro time doInterpolation; simp [sampleEdges]
  | cons e rest ih =>
    intro time doInterpolation
    simp only [sampleEdges]
    cases he : e.getTransformation ops agg time doInterpolation with
    | none =>
      simp only [List.mem_cons]
      constructor
      · intro _; exact ⟨e, Or.inl rfl, he⟩
      · intro _; trivial
    | some tr =>
      simp only [List.mem_cons]
      cases hs : sampleEdges ops agg rest time doInterpolation with
      | none =>
        simp only [Option.map_none']
        constructor
        · intro _
          rcases (ih time doInterpolation).mp hs with ⟨e2, he2, hn⟩
          exact ⟨e2, Or.inr he2, hn⟩
        · intro _; trivial
      | some ts =>
        simp only [Option.map_some']
        constructor
        · intro hcontr; cases hcontr
        · rintro ⟨e2, he2, hn⟩
          rcases he2 with rfl | he2'
          · rw [he] at hn; cases hn
          · have h2 := (ih time doInterpolation).mpr ⟨e2, he2', hn⟩
            rw [hs] at h2; cases h2

/-- The effect of `pushDynamicTransformation` on an already-registered pair:
only the sample is forwarded under the recorded stream index. -/
theorem pushDynamicTransformation_lookup_some {M : Type} (st : TransformerState M)
    (tr : Transformation M) (idx : Nat)
    (h : Transformer.lookupPair st (tr.from_, tr.to_) = some idx) :
    Transformer.pushDynamicTransformation st tr =
      { st with pushedSamples := st.pushedSamples ++ [(idx, tr)] } := by
  simp only [Transformer.pushDynamicTransformation, h]

/-- The effect of `pushDynamicTransformation` on an unknown pair, spelled
out: fresh stream index recorded in the map, dynamic element and its inverse
appended to the tree, all makers re-resolved against the grown tree, sample
forwarded under the fresh index. -/
theorem pushDynamicTransformation_lookup_none {M : Type} (st : TransformerState M)
    (tr : Transformation M)
    (h : Transformer.lookupPair st (tr.from_, tr.to_) = none) :
    Transformer.pushDynamicTransformation st tr =
      { st with
        transformToStreamIndex :=
          ((tr.from_, tr.to_), st.nextStreamIndex) :: st.transformToStreamIndex,
        availableElements := TransformationTree.addTransformation st.availableElements
          (.dynamicElem tr.from_ tr.to_ st.nextStreamIndex),
        transformationMakers := st.transformationMakers.map fun mk =>
          match TransformationTree.getTransformationChain
              (TransformationTree.addTransformation st.availableElements
                (.dynamicElem tr.from_ tr.to_ st.nextStreamIndex))
              st.maxSeekDepth mk.sourceFrame mk.targetFrame with
          | some chain => { mk with transformationChain := chain }
          | none => mk,
        nextStreamIndex := st.nextStreamIndex + 1,
        pushedSamples := st.pushedSamples ++ [(st.nextStreamIndex, tr)] } := by
  simp only [Transformer.pushDynamicTransformation, h]

/-- Looking up a key at the head of the map. -/
theorem lookupPair_cons_self {M : Type} (st : TransformerState M)
    (key : String × String) (idx : Nat) (rest : List ((String × String) × Nat))
    (hmap : st.transformToStreamIndex = (key, idx) :: rest) :
    Transformer.lookupPair st key = some idx := by
  simp [Transformer.lookupPair, hmap, Transformer.lookupPair.go]

/-- C1 — the claim is false of the code.  In the S4 setup (the single static
edge `A→B` plus its automatic inverse), `find_chain(A, A)` returns "none",
not an empty chain: the search compares only children of expanded nodes with
the target, never the root itself, and the loop guard prunes the immediate
return `B→A`.  Consequently the maker registered for `(A, A)` keeps an empty
chain and `get` returns "no sample", not the identity transform. -/
theorem c1_counterexample :
    TransformationTree.getTransformationChain availAB 20 "A" "A" = none ∧
      (Transformer.registerTransformation stAB "A" "A").2.transformationChain = [] ∧
      TransformationMakerBase.getTransformation opsInt aggEmpty
        (Transformer.registerTransformation stAB "A" "A").2 0 false = none := by
  decide

/-- C1 (amended): `find_chain` never succeeds with an empty chain — any
returned chain has at least one edge — and in the S4 setup
`find_chain(A, A)` returns "none" (in particular not `[A→B, B→A_inverse]`),
so the maker registered for `(A, A)` has an empty chain and `get` returns
"no sample". -/
theorem c1_theorem {M : Type} (avail : List (TransformationElement M)) (maxSeekDepth : Nat)
    (from_ to_ : String) (res : List (TransformationElement M))
    (h : TransformationTree.getTransformationChain avail maxSeekDepth from_ to_ = some res) :
    res ≠ [] ∧
      TransformationTree.getTransformationChain availAB 20 "A" "A" = none ∧
      (Transformer.registerTransformation stAB "A" "A").2.transformationChain = [] ∧
      TransformationMakerBase.getTransformation opsInt aggEmpty
        (Transformer.registerTransformation stAB "A" "A").2 0 false = none := by
  refine ⟨?_, by decide, by decide, by decide⟩
  rcases seekLevels_spec maxSeekDepth _ 0 (rootLevel_inv from_) h with
    ⟨c, _, _, _, ⟨fn, p, e, rfl⟩, hres, _⟩
  rw [hres]
  simp [TransformationNode.collectChain]

/-- C1 witness: the amended statement applied to the concrete two-edge tree
`A→B`, `B→C`, whose resolved chain for `(A, C)` is nonempty. -/
theorem c1_witness :
    ([elemBC, elemAB] : List (TransformationElement Int)) ≠ [] ∧
      TransformationTree.getTransformationChain availAB 20 "A" "A" = none ∧
      (Transformer.registerTransformation stAB "A" "A").2.transformationChain = [] ∧
      TransformationMakerBase.getTransformation opsInt aggEmpty
        (Transformer.registerTransformation stAB "A" "A").2 0 false = none :=
  c1_theorem availABC 20 "A" "C" [elemBC, elemAB] (by decide)

/-- C2 — the claim is false of the code.  With static edges `A→B` and `B→C`,
`find_chain(A, C)` succeeds and returns `[B→C, A→B]`: the first edge of the
returned vector does not leave the source frame `A` and the last edge does
not enter the target frame `C` — the vector is in leaf-to-root order, not
root-to-leaf order. -/
theorem c2_counterexample :
    TransformationTree.getTransformationChain availABC 20 "A" "C" = some [elemBC, elemAB] ∧
      TransformationElement.getSourceFrame elemBC ≠ "A" ∧
      TransformationElement.getTargetFrame elemAB ≠ "C" := by
  decide

/-- C2 (amended): whenever `find_chain` succeeds, the returned edge list is
nonempty and in leaf-to-root order: its first edge enters the target frame
`to`, its last edge leaves the source frame `from`, and each later-listed
edge's target frame is the source frame of the edge listed just before it
(`chainConnects`). -/
theorem c2_theorem {M : Type} (avail : List (TransformationElement M)) (maxSeekDepth : Nat)
    (from_ to_ : String) (res : List (TransformationElement M))
    (h : TransformationTree.getTransformationChain avail maxSeekDepth from_ to_ = some res) :
    res ≠ [] ∧ chainConnects from_ res to_ = true := by
  rcases seekLevels_spec maxSeekDepth _ 0 (rootLevel_inv from_) h with
    ⟨c, hg, hr, hf, ⟨fn, p, e, hshape⟩, hres, _⟩
  constructor
  · rw [hres, hshape]
    simp [TransformationNode.collectChain]
  · have hcc := chainConnects_collectChain hg
    rw [hr, hf] at hcc
    rw [hres]
    exact hcc

/-- C2 witness: the amended statement at the concrete two-edge tree. -/
theorem c2_witness :
    ([elemBC, elemAB] : List (TransformationElement Int)) ≠ [] ∧
      chainConnects "A" [elemBC, elemAB] "C" = true :=
  c2_theorem availABC 20 "A" "C" [elemBC, elemAB] (by decide)

/-- C3: for a maker with a non-empty chain, `get` samples each edge in chain
order (`sampleEdges`); if every edge yields a sample the result is the
product `identity · T₁ · … · T_k` built by right multiplication (a left fold
of `mul` over the samples starting at the identity), together with the
maker's source frame, target frame and the query time; if any edge has no
sample the result is "no sample". -/
theorem c3_theorem {M : Type} (ops : RigidOps M) (agg : Nat → Int → Bool → Option M)
    (mk : TransformationMakerBase M) (time : Int) (doInterpolation : Bool)
    (h : mk.transformationChain ≠ []) :
    (∀ ts, sampleEdges ops agg mk.transformationChain time doInterpolation = some ts →
        mk.getTransformation ops agg time doInterpolation =
          some ⟨mk.sourceFrame, mk.targetFrame, time, ts.foldl ops.mul ops.identity⟩) ∧
      ((∃ e ∈ mk.transformationChain,
          e.getTransformation ops agg time doInterpolation = none) →
        mk.getTransformation ops agg time doInterpolation = none) := by
  have hne : mk.transformationChain.isEmpty = false := by
    rcases hchain : mk.transformationChain with _ | ⟨a, t⟩
    · exact absurd hchain h
    · rfl
  constructor
  · intro ts hts
    simp only [TransformationMakerBase.getTransformation, hne, Bool.false_eq_true, if_false]
    rw [applyChain_eq_sampleEdges, hts]
    rfl
  · intro hex
    have hnone : sampleEdges ops agg mk.transformationChain time doInterpolation = none :=
      (sampleEdges_eq_none_iff ops agg _ time doInterpolation).mpr hex
    simp only [TransformationMakerBase.getTransformation, hne, Bool.false_eq_true, if_false]
    rw [applyChain_eq_sampleEdges, hnone]
    rfl

/-- C3 witness: the maker for `(A, C)` holding the chain `[B→C, A→B]` of
static transforms 2 and 1 composes them to `(1 · 2) · 1 = 2`. -/
theorem c3_witness :
    TransformationMakerBase.getTransformation opsInt aggEmpty mkAC 0 false =
      some ⟨"A", "C", 0, ([2, 1] : List Int).foldl opsInt.mul opsInt.identity⟩ :=
  (c3_theorem opsInt aggEmpty mkAC 0 false (by decide)).1 [2, 1] (by decide)

/-- C4: a maker whose chain is empty returns "no sample" for every time,
interpolation flag, aggregator and math-library instantiation — no edge is
ever sampled (the result does not depend on `agg`). -/
theorem c4_theorem {M : Type} (ops : RigidOps M) (agg : Nat → Int → Bool → Option M)
    (mk : TransformationMakerBase M) (time : Int) (doInterpolation : Bool)
    (h : mk.transformationChain = []) :
    mk.getTransformation ops agg time doInterpolation = none := by
  simp [TransformationMakerBase.getTransformation, h]

/-- C4 witness: the empty-chain maker at a concrete time. -/
theorem c4_witness :
    TransformationMakerBase.getTransformation opsInt aggEmpty ⟨"A", "C", []⟩ 5 true = none :=
  c4_theorem opsInt aggEmpty ⟨"A", "C", []⟩ 5 true rfl

/-- C5: `addTransformation` with a non-inverse element appends the element
and a freshly created inverse sibling whose endpoints are the swap of the
element's; nothing is deduplicated — each addition increases the occurrence
count of the element and of its inverse by one, and adding the same element
twice leaves four new entries in the tree. -/
theorem c5_theorem {M : Type} [DecidableEq M] (avail : List (TransformationElement M))
    (e : TransformationElement M) (_h : e.isInverseElem = false) :
    TransformationTree.addTransformation avail e =
        avail ++ [e, TransformationElement.inverseElem e] ∧
      (TransformationElement.inverseElem e).getSourceFrame = e.getTargetFrame ∧
      (TransformationElement.inverseElem e).getTargetFrame = e.getSourceFrame ∧
      (TransformationTree.addTransformation avail e).count e = avail.count e + 1 ∧
      (TransformationTree.addTransformation avail e).count
          (TransformationElement.inverseElem e) =
        avail.count (TransformationElement.inverseElem e) + 1 ∧
      (TransformationTree.addTransformation (TransformationTree.addTransformation avail e)
          e).length = avail.length + 4 := by
  have h1 : (TransformationElement.inverseElem e == e) = false :=
    beq_eq_false_iff_ne.mpr (inverseElem_ne e)
  have h2 : (e == TransformationElement.inverseElem e) = false :=
    beq_eq_false_iff_ne.mpr (Ne.symm (inverseElem_ne e))
  refine ⟨rfl, rfl, rfl, ?_, ?_, ?_⟩
  · simp [TransformationTree.addTransformation, List.count_append, List.count_cons, h1]
  · simp [TransformationTree.addTransformation, List.count_append, List.count_cons, h2]
  · simp [TransformationTree.addTransformation]

/-- C5 witness: adding the static edge `A→B` to the empty tree. -/
theorem c5_witness :
    TransformationTree.addTransformation [] elemAB =
        [] ++ [elemAB, TransformationElement.inverseElem elemAB] ∧
      (TransformationElement.inverseElem elemAB).getSourceFrame = elemAB.getTargetFrame ∧
      (TransformationElement.inverseElem elemAB).getTargetFrame = elemAB.getSourceFrame ∧
      (TransformationTree.addTransformation [] elemAB).count elemAB =
        List.count elemAB [] + 1 ∧
      (TransformationTree.addTransformation [] elemAB).count
          (TransformationElement.inverseElem elemAB) =
        List.count (TransformationElement.inverseElem elemAB) [] + 1 ∧
      (TransformationTree.addTransformation (TransformationTree.addTransformation [] elemAB)
          elemAB).length = List.length ([] : List (TransformationElement Int)) + 4 :=
  c5_theorem [] elemAB rfl

/-- C6 — the claim is false of the code.  With static edges `A→B` and `B→C`,
`find_chain(A, C)` returns the vector `[B→C, A→B]`, whose two consecutive
edges have the second one's target frame (`B`) equal to the frame the first
one started from (`B`): because the vector is in leaf-to-root order, every
adjacent pair of a longer chain violates the claimed reading. -/
theorem c6_counterexample :
    TransformationTree.getTransformationChain availABC 20 "A" "C" = some [elemBC, elemAB] ∧
      chainNoBacktrack [elemBC, elemAB] = false := by
  decide

/-- C6 (amended): an edge `e` leaving a node `n` is skipped exactly when `n`
has a parent whose frame name equals `e`'s target frame; consequently, in
any returned (leaf-to-root) chain no adjacent pair has the earlier-listed
edge's target frame equal to the later-listed edge's source frame
(`chainNoUndo`), and in particular no edge is adjacent to its inverse
sibling in either order (`chainNoInverseAdjacent`). -/
theorem c6_theorem {M : Type} [DecidableEq M] (avail2 : List (TransformationElement M))
    (node : TransformationNode M) (e : TransformationElement M)
    (avail : List (TransformationElement M)) (maxSeekDepth : Nat) (from_ to_ : String)
    (res : List (TransformationElement M))
    (h : TransformationTree.getTransformationChain avail maxSeekDepth from_ to_ = some res) :
    (TransformationNode.child e.getTargetFrame node e ∈
        TransformationTree.addMatchingTransforms avail2 node.frameName node ↔
      e ∈ avail2 ∧ e.getSourceFrame = node.frameName ∧
        node.parentFrameIs e.getTargetFrame = false) ∧
      chainNoUndo res = true ∧ chainNoInverseAdjacent res = true := by
  refine ⟨?_, ?_, ?_⟩
  · constructor
    · intro hm
      rcases mem_addMatchingTransforms.mp hm with ⟨e2, he2, h3, h4, heq⟩
      injection heq with h5 h6 h7
      subst h7
      exact ⟨he2, h3, h4⟩
    · rintro ⟨he, h3, h4⟩
      exact mem_addMatchingTransforms.mpr ⟨e, he, h3, h4, rfl⟩
  · rcases seekLevels_spec maxSeekDepth _ 0 (rootLevel_inv from_) h with
      ⟨c, hg, _, _, _, hres, _⟩
    rw [hres]
    exact chainNoUndo_collectChain hg
  · rcases seekLevels_spec maxSeekDepth _ 0 (rootLevel_inv from_) h with
      ⟨c, hg, _, _, _, hres, _⟩
    rw [hres]
    exact chainNoInverseAdjacent_of_chainNoUndo (chainNoUndo_collectChain hg)

/-- C6 witness: the amended statement instantiated at the one-edge tree (for
the skip characterization) and the two-edge tree's chain for `(A, C)`. -/
theorem c6_witness :
    (TransformationNode.child elemAB.getTargetFrame (TransformationNode.root "A") elemAB ∈
        TransformationTree.addMatchingTransforms availAB
          (TransformationNode.root "A" : TransformationNode Int).frameName
          (TransformationNode.root "A" : TransformationNode Int) ↔
      elemAB ∈ availAB ∧
        elemAB.getSourceFrame = (TransformationNode.root "A" : TransformationNode Int).frameName ∧
        (TransformationNode.root "A" : TransformationNode Int).parentFrameIs
          elemAB.getTargetFrame = false) ∧
      chainNoUndo [elemBC, elemAB] = true ∧
      chainNoInverseAdjacent [elemBC, elemAB] = true :=
  c6_theorem availAB (TransformationNode.root "A") elemAB availABC 20 "A" "C"
    [elemBC, elemAB] (by decide)

/-- C7: any chain returned by `find_chain` has length at most `maxSeekDepth`;
the search is a total function that reports failure by returning "none"
(modelled by `Option`), never by throwing. -/
theorem c7_theorem {M : Type} (avail : List (TransformationElement M)) (maxSeekDepth : Nat)
    (from_ to_ : String) (res : List (TransformationElement M))
    (h : TransformationTree.getTransformationChain avail maxSeekDepth from_ to_ = some res) :
    res.length ≤ maxSeekDepth := by
  rcases seekLevels_spec maxSeekDepth _ 0 (rootLevel_inv from_) h with
    ⟨c, _, _, _, _, hres, hlen⟩
  simpa using hlen

/-- C7 witness: the two-edge chain for `(A, C)` respects the default bound. -/
theorem c7_witness :
    ([elemBC, elemAB] : List (TransformationElement Int)).length ≤ 20 :=
  c7_theorem availABC 20 "A" "C" [elemBC, elemAB] (by decide)

/-- C8: pushing a dynamic sample whose ordered `(from, to)` pair has no
registered stream (given the map is well formed: every recorded index is
below the fresh counter) registers a fresh stream index and records it for
the pair, the fresh index was never used before and the map stays well
formed (so indices are unique per pair and never reused), the dynamic edge
and its automatic inverse are appended to the tree, every maker is
re-resolved against the grown tree (updated exactly when a chain is found),
the sample is forwarded to the aggregator under the fresh index, and any
later push of the same pair only forwards its sample under that same
recorded index. -/
theorem c8_theorem {M : Type} (st : TransformerState M) (tr : Transformation M)
    (hnew : Transformer.lookupPair st (tr.from_, tr.to_) = none)
    (hwf : ∀ p ∈ st.transformToStreamIndex, p.2 < st.nextStreamIndex) :
    Transformer.lookupPair (Transformer.pushDynamicTransformation st tr) (tr.from_, tr.to_) =
        some st.nextStreamIndex ∧
      (∀ p ∈ st.transformToStreamIndex, p.2 ≠ st.nextStreamIndex) ∧
      (∀ p ∈ (Transformer.pushDynamicTransformation st tr).transformToStreamIndex,
        p.2 < (Transformer.pushDynamicTransformation st tr).nextStreamIndex) ∧
      (Transformer.pushDynamicTransformation st tr).availableElements =
        st.availableElements ++
          [TransformationElement.dynamicElem tr.from_ tr.to_ st.nextStreamIndex,
            TransformationElement.inverseElem
              (TransformationElement.dynamicElem tr.from_ tr.to_ st.nextStreamIndex)] ∧
      (Transformer.pushDynamicTransformation st tr).transformationMakers =
        st.transformationMakers.map (fun mk =>
          match TransformationTree.getTransformationChain
              (Transformer.pushDynamicTransformation st tr).availableElements
              st.maxSeekDepth mk.sourceFrame mk.targetFrame with
          | some chain => { mk with transformationChain := chain }
          | none => mk) ∧
      (Transformer.pushDynamicTransformation st tr).pushedSamples =
        st.pushedSamples ++ [(st.nextStreamIndex, tr)] ∧
      ∀ tr2 : Transformation M, tr2.from_ = tr.from_ → tr2.to_ = tr.to_ →
        Transformer.pushDynamicTransformation (Transformer.pushDynamicTransformation st tr)
            tr2 =
          { Transformer.pushDynamicTransformation st tr with
            pushedSamples := (Transformer.pushDynamicTransformation st tr).pushedSamples ++
              [(st.nextStreamIndex, tr2)] } := by
  have hpush := pushDynamicTransformation_lookup_none st tr hnew
  rw [hpush]
  refine ⟨?_, ?_, ?_, rfl, rfl, rfl, ?_⟩
  · simp [Transformer.lookupPair, Transformer.lookupPair.go]
  · intro p hp
    exact Nat.ne_of_lt (hwf p hp)
  · intro p hp
    rcases List.mem_cons.mp hp with rfl | hp'
    · exact Nat.lt_succ_self _
    · exact Nat.lt_succ_of_lt (hwf p hp')
  · intro tr2 h1 h2
    apply pushDynamicTransformation_lookup_some
    rw [h1, h2]
    simp [Transformer.lookupPair, Transformer.lookupPair.go]

/-- C8 witness: pushing the dynamic sample `A→B` into a state with an empty
map records the fresh stream index 0 for the pair `(A, B)`. -/
theorem c8_witness :
    Transformer.lookupPair (Transformer.pushDynamicTransformation stXY trAB)
      (trAB.from_, trAB.to_) = some stXY.nextStreamIndex :=
  (c8_theorem stXY trAB (by decide) (by simp [stXY])).1

/-- C9: `pushStaticTransformation` appends exactly the static edge and its
automatic inverse to the tree and changes nothing else: the makers (and
hence every maker's chain), the stream-index map, the fresh-index counter
and the pushed-sample log are untouched — no re-resolution happens. -/
theorem c9_theorem {M : Type} (st : TransformerState M) (tr : Transformation M) :
    (Transformer.pushStaticTransformation st tr).availableElements =
        st.availableElements ++
          [TransformationElement.staticElem tr.from_ tr.to_ tr.transform,
            TransformationElement.inverseElem
              (TransformationElement.staticElem tr.from_ tr.to_ tr.transform)] ∧
      (Transformer.pushStaticTransformation st tr).transformationMakers =
        st.transformationMakers ∧
      (Transformer.pushStaticTransformation st tr).transformToStreamIndex =
        st.transformToStreamIndex ∧
      (Transformer.pushStaticTransformation st tr).nextStreamIndex = st.nextStreamIndex ∧
      (Transformer.pushStaticTransformation st tr).pushedSamples = st.pushedSamples :=
  ⟨rfl, rfl, rfl, rfl, rfl⟩

/-- C10: during the re-resolution pass of a dynamic push with an unknown
pair, the maker at any position whose `(source, target)` pair has no chain
in the grown tree is left exactly as it was — its previously installed chain
is retained, not cleared. -/
theorem c10_theorem {M : Type} (st : TransformerState M) (tr : Transformation M)
    (hnew : Transformer.lookupPair st (tr.from_, tr.to_) = none)
    (i : Nat) (dm : TransformationMakerBase M)
    (hfail : TransformationTree.getTransformationChain
        (TransformationTree.addTransformation st.availableElements
          (TransformationElement.dynamicElem tr.from_ tr.to_ st.nextStreamIndex))
        st.maxSeekDepth (st.transformationMakers.getD i dm).sourceFrame
        (st.transformationMakers.getD i dm).targetFrame = none) :
    (Transformer.pushDynamicTransformation st tr).transformationMakers.getD i dm =
      st.transformationMakers.getD i dm := by
  rw [pushDynamicTransformation_lookup_none st tr hnew]
  show (st.transformationMakers.map _).getD i dm = st.transformationMakers.getD i dm
  rw [List.getD_eq_getElem?_getD, List.getElem?_map]
  cases hg : st.transformationMakers[i]? with
  | none => simp [List.getD_eq_getElem?_getD, hg]
  | some mk =>
    have hmk : st.transformationMakers.getD i dm = mk := by
      simp [List.getD_eq_getElem?_getD, hg]
    rw [hmk] at hfail
    simp [List.getD_eq_getElem?_getD, hg, hfail, hmk]

/-- C10 witness: pushing dynamic `A→B` into a state holding one maker for
the unreachable pair `(X, Y)` leaves that maker unchanged. -/
theorem c10_witness :
    (Transformer.pushDynamicTransformation stXY trAB).transformationMakers.getD 0
        ⟨"X", "Y", []⟩ =
      stXY.transformationMakers.getD 0 ⟨"X", "Y", []⟩ :=
  c10_theorem stXY trAB (by decide) 0 ⟨"X", "Y", []⟩ (by decide)

end transformer
